import Mathlib

/-!
Verification of the VoxVM core against its specification.

This file gives a shallow embedding of the parts of the VoxVM virtual machine
(register model, operand stack, call stack, heap allocator, garbage collector,
and the instruction handlers the claims touch) and proves or refutes the
specified properties.  Machine integers are modelled as `Nat` (unsigned, with
explicit `% 2^64` where wrap-around matters) and `Int` (signed); IEEE-754
doubles are carried by their 64-bit pattern and never computed with, except
for the bit-exact comparisons against zero that the source performs.  Rust
panics (host-level aborts) are modelled by `Option`/`StepResult.fatal`.
-/

namespace VoxVM

/-- Runtime type tags, the parallel `reg_types` array entries (src/vm.rs, `RegTypes`). -/
inductive RegTypes where
  | uint64
  | int64
  | float64
  | StrAddr
  | address
  | ds_addr
deriving DecidableEq, Repr

/-- Tagged 64-bit register (src/registers.rs, `Register`).  `uint` and the three
address variants carry the unsigned value, `int` the signed value, and `float`
the IEEE-754 bit pattern of the `f64`. -/
inductive Reg where
  | uint (v : Nat)
  | int (v : Int)
  | float (bits : Nat)
  | StrAddr (v : Nat)
  | address (v : Nat)
  | ds_addr (v : Nat)
deriving DecidableEq, Repr

/-- Two's-complement bit pattern of an `i64` (Rust `v as u64`). -/
def toU64 (i : Int) : Nat := (i % (2 ^ 64 : Int)).toNat

/-- Reading a 64-bit pattern back as an `i64` (Rust `v as i64`). -/
def u64ToI64 (v : Nat) : Int := if v < 2 ^ 63 then (v : Int) else (v : Int) - 2 ^ 64

/-- NaN test on an `f64` bit pattern: exponent all ones, non-zero mantissa. -/
def f64IsNaN (b : Nat) : Bool := decide ((b / 2 ^ 52) % 2 ^ 11 = 2047) && decide (b % 2 ^ 52 ≠ 0)

/-- `f64` zero test on a bit pattern: positive or negative zero. -/
def f64IsZero (b : Nat) : Bool := decide (b = 0) || decide (b = 2 ^ 63)

/-- IEEE equality of two `f64`s given by bit patterns (Rust `a == b`): NaN equals
nothing, the two zeros are equal, any other value has a unique representation. -/
def f64BitsEq (a b : Nat) : Bool :=
  !f64IsNaN a && !f64IsNaN b && (decide (a = b) || (f64IsZero a && f64IsZero b))

/-- Rust `f64 as u64` saturating cast computed from the bit pattern: NaN and
negative values give 0, values at or above `2^64` give `2^64 - 1`. -/
def f64BitsToU64 (b : Nat) : Nat :=
  if f64IsNaN b then 0
  else if 2 ^ 63 ≤ b then 0
  else
    let e := b / 2 ^ 52
    let m := b % 2 ^ 52
    if e = 0 then 0
    else
      let frac := 2 ^ 52 + m
      if 1075 ≤ e then
        let v := frac * 2 ^ (e - 1075)
        if 2 ^ 64 ≤ v then 2 ^ 64 - 1 else v
      else frac / 2 ^ (1075 - e)

/-- `PartialEq` on registers (src/registers.rs): equal only on matching variants. -/
def Reg.eqv : Reg → Reg → Bool
  | .uint a, .uint b => decide (a = b)
  | .int a, .int b => decide (a = b)
  | .float a, .float b => f64BitsEq a b
  | .StrAddr a, .StrAddr b => decide (a = b)
  | .address a, .address b => decide (a = b)
  | .ds_addr a, .ds_addr b => decide (a = b)
  | _, _ => false

/-- `Register::as_u64` (numeric cast to `u64`). -/
def Reg.as_u64 : Reg → Nat
  | .uint v => v
  | .int v => toU64 v
  | .float b => f64BitsToU64 b
  | .StrAddr v => v
  | .address v => v
  | .ds_addr v => v

/-- `Register::as_u64_bitwise` (underlying bit pattern). -/
def Reg.as_u64_bitwise : Reg → Nat
  | .uint v => v
  | .int v => toU64 v
  | .float b => b
  | .StrAddr v => v
  | .address v => v
  | .ds_addr v => v

/-- `Register::from_u64_bits(val, to_type)`. -/
def Reg.from_u64_bits (val : Nat) : RegTypes → Reg
  | .uint64 => .uint val
  | .int64 => .int (u64ToI64 val)
  | .float64 => .float val
  | .StrAddr => .StrAddr val
  | .address => .address val
  | .ds_addr => .ds_addr val

/-- The `Div` operator on registers (src/registers.rs, `impl Div for Register`).
`none` models the panics: mismatched variants, integer division by zero, and
`i64` overflow (`MIN / -1`).  The float arm performs a real IEEE division in the
source, which we do not model; it is taken as the parameter `fdiv` on bit
patterns (no claim depends on its value). -/
def Reg.div (fdiv : Nat → Nat → Nat) : Reg → Reg → Option Reg
  | .uint a, .uint b => if b = 0 then none else some (.uint (a / b))
  | .int a, .int b =>
      if b = 0 then none
      else if a = -(2 ^ 63) ∧ b = -1 then none
      else some (.int (Int.tdiv a b))
  | .float a, .float b => some (.float (fdiv a b))
  | .StrAddr a, .StrAddr b => if b = 0 then none else some (.StrAddr (a / b))
  | .address a, .address b => if b = 0 then none else some (.address (a / b))
  | .ds_addr a, .ds_addr b => if b = 0 then none else some (.ds_addr (a / b))
  | _, _ => none

/-- Bitwise OR on registers (`impl BitOr`): same non-float variants only. -/
def Reg.bitor : Reg → Reg → Option Reg
  | .uint a, .uint b => some (.uint (Nat.lor a b))
  | .int a, .int b => some (.int (u64ToI64 (Nat.lor (toU64 a) (toU64 b))))
  | .StrAddr a, .StrAddr b => some (.StrAddr (Nat.lor a b))
  | .address a, .address b => some (.address (Nat.lor a b))
  | .ds_addr a, .ds_addr b => some (.ds_addr (Nat.lor a b))
  | _, _ => none

/-- Bitwise AND on registers (`impl BitAnd`). -/
def Reg.bitand : Reg → Reg → Option Reg
  | .uint a, .uint b => some (.uint (Nat.land a b))
  | .int a, .int b => some (.int (u64ToI64 (Nat.land (toU64 a) (toU64 b))))
  | .StrAddr a, .StrAddr b => some (.StrAddr (Nat.land a b))
  | .address a, .address b => some (.address (Nat.land a b))
  | .ds_addr a, .ds_addr b => some (.ds_addr (Nat.land a b))
  | _, _ => none

/-- Bitwise XOR on registers (`impl BitXor`). -/
def Reg.bitxor : Reg → Reg → Option Reg
  | .uint a, .uint b => some (.uint (Nat.xor a b))
  | .int a, .int b => some (.int (u64ToI64 (Nat.xor (toU64 a) (toU64 b))))
  | .StrAddr a, .StrAddr b => some (.StrAddr (Nat.xor a b))
  | .address a, .address b => some (.address (Nat.xor a b))
  | .ds_addr a, .ds_addr b => some (.ds_addr (Nat.xor a b))
  | _, _ => none

/-- Bitwise NOT (`impl Not`): defined on everything except `float`.
On `u64`, `!a = a xor (2^64 - 1)`; on `i64`, `!a = -a - 1`. -/
def Reg.bitnot : Reg → Option Reg
  | .uint a => some (.uint (Nat.xor a (2 ^ 64 - 1)))
  | .int a => some (.int (-a - 1))
  | .float _ => none
  | .StrAddr a => some (.StrAddr (Nat.xor a (2 ^ 64 - 1)))
  | .address a => some (.address (Nat.xor a (2 ^ 64 - 1)))
  | .ds_addr a => some (.ds_addr (Nat.xor a (2 ^ 64 - 1)))

/-- `Register::logical_not`: 1 if the value is zero, else 0, keeping the variant. -/
def Reg.logical_not : Reg → Reg
  | .uint v => .uint (if v = 0 then 1 else 0)
  | .int v => .int (if v = 0 then 1 else 0)
  | .float b => .float (if f64IsZero b then 4607182418800017408 else 0)
  | .StrAddr v => .StrAddr (if v = 0 then 1 else 0)
  | .address v => .address (if v = 0 then 1 else 0)
  | .ds_addr v => .ds_addr (if v = 0 then 1 else 0)

/-- Exception kinds (src/exceptions.rs). -/
inductive Exc where
  | ZeroDivision
  | HeapAllocationFault
  | HeapFreeFault
  | HeapWriteFault
  | HeapReadFault
  | NegativeSqrt
  | InvalidDataType
  | NativeFault
  | IncorrectRegType
  | HeapSegmFault
  | MainSegmFault
deriving DecidableEq, Repr

/-- A heap block (src/heap.rs, `HeapBlock`): inclusive byte range.  The `size`
field of the source is maintained as `last - start` by `new`/`realloc`, so it is
derived here. -/
structure HeapBlock where
  start_byte : Nat
  last_byte : Nat
deriving DecidableEq, Repr

def HeapBlock.size (b : HeapBlock) : Nat := b.last_byte - b.start_byte

/-- Heap state (src/heap.rs, `Heap`).  `saved_refs` is the reference multimap,
kept as a list of (source pointer, target pointer) edges. -/
structure Heap where
  heap : List Nat
  free_list : List HeapBlock
  allocated : List HeapBlock
  saved_refs : List (Nat × Nat)
deriving DecidableEq, Repr

/-- `Heap::new`: one free block covering the whole arena (`saturating_sub` is
`Nat` subtraction). -/
def Heap.new (heap_size : Nat) : Heap :=
  { heap := [], free_list := [⟨0, heap_size - 1⟩], allocated := [], saved_refs := [] }

/-- The first-fit scan of `Heap::alloc`: find the first free block with
`size ≥ n`, carve `[start, start + n]` off it; if `last - (start + n) = 0`
delete the block, else shrink it to `[start + n + 1, last]`.  Returns the
pointer and the updated free list. -/
def allocGo (n : Nat) : List HeapBlock → Option (Nat × List HeapBlock)
  | [] => none
  | b :: rest =>
    if n ≤ b.size then
      if b.last_byte - (b.start_byte + n) = 0 then some (b.start_byte, rest)
      else some (b.start_byte, ⟨b.start_byte + n + 1, b.last_byte⟩ :: rest)
    else
      match allocGo n rest with
      | none => none
      | some (p, rest') => some (p, b :: rest')

/-- `Heap::alloc` (src/heap.rs): first-fit allocation; the carved block is
appended to `allocated`.  `none` is the out-of-memory result. -/
def Heap.alloc (h : Heap) (count_bytes : Nat) : Option (Nat × Heap) :=
  match allocGo count_bytes h.free_list with
  | none => none
  | some (p, fl) =>
      some (p, { h with free_list := fl, allocated := h.allocated ++ [⟨p, p + count_bytes⟩] })

/-- The search-and-remove of `Heap::free`: find the first allocated block whose
`start_byte` equals `ptr`, returning it and the remaining list. -/
def removeAllocated : List HeapBlock → Nat → Option (HeapBlock × List HeapBlock)
  | [], _ => none
  | b :: rest, ptr =>
    if b.start_byte = ptr then some (b, rest)
    else
      match removeAllocated rest ptr with
      | none => none
      | some (x, l) => some (x, b :: l)

/-- The stable sort by `start_byte` (`free_list.sort_by(a.start_byte.cmp(...))`). -/
def sortFree (l : List HeapBlock) : List HeapBlock :=
  List.insertionSort (fun a b => a.start_byte ≤ b.start_byte) l

/-- The merge loop of `Heap::merge_free_blocks`: whenever the current block ends
exactly one byte before the next begins (`cur.last == next.start.saturating_sub(1)`,
`Nat` subtraction), replace the two by their union and stay at the same index,
otherwise advance.  The fuel argument equals the list length at the top-level
call, which bounds the number of loop steps (each step shortens the list or
moves the index right). -/
def mergeGo : Nat → List HeapBlock → List HeapBlock
  | 0, l => l
  | _ + 1, [] => []
  | _ + 1, [a] => [a]
  | fuel + 1, a :: b :: rest =>
    if a.last_byte = b.start_byte - 1 then mergeGo fuel (⟨a.start_byte, b.last_byte⟩ :: rest)
    else a :: mergeGo fuel (b :: rest)

def mergeFreeBlocks (l : List HeapBlock) : List HeapBlock := mergeGo l.length l

/-- `Heap::free` (src/heap.rs): remove the allocated block starting at `ptr`
(`none` models the `Err` result), append a free block with the same extent,
re-sort the free list by start and run the merge pass. -/
def Heap.free (h : Heap) (ptr : Nat) : Option Heap :=
  match removeAllocated h.allocated ptr with
  | none => none
  | some (blk, rest) =>
      some { h with
              allocated := rest,
              free_list := mergeFreeBlocks (sortFree (h.free_list ++ [⟨ptr, blk.last_byte⟩])) }

/-- The containment check of `Heap::write`: `ptr ≥ start`, `ptr ≤ last` and
`ptr + len ≤ last` for some allocated block. -/
def heapWriteCheck (b : HeapBlock) (ptr len : Nat) : Bool :=
  decide (b.start_byte ≤ ptr) && decide (ptr ≤ b.last_byte) && decide (ptr + len ≤ b.last_byte)

/-- The byte mutation of `Heap::write`: pad the byte vector with zeros up to
index `ptr`, then store each data byte, appending when past the end.  (The
source's `len <= capacity` guard is always true for a Rust `Vec`.) -/
def heapBytesWrite (bytes : List Nat) (ptr : Nat) (data : List Nat) : List Nat :=
  let padded := bytes ++ List.replicate (ptr + 1 - bytes.length) 0
  (data.foldl
    (fun st b =>
      ((if st.2 + 1 > st.1.length then st.1 ++ [b] else st.1.set st.2 b), st.2 + 1))
    (padded, ptr)).1

/-- `Heap::write` (src/heap.rs): succeeds iff `[ptr, ptr + data.len()]` passes
the containment check against some allocated block; `none` is the `Err` result
(raised as `HeapWriteFault` by `op_store`). -/
def Heap.write (h : Heap) (ptr : Nat) (data : List Nat) : Option Heap :=
  if h.allocated.any (fun b => heapWriteCheck b ptr data.length) then
    some { h with heap := heapBytesWrite h.heap ptr data }
  else none

/-- A tracked GC object (src/gc.rs, `GcObject`). -/
structure GcObject where
  heap_ptr : Nat
  marked : Bool
deriving DecidableEq, Repr

/-- Collector state (src/gc.rs, `GC`).  `main_refs` is the pinned root set and
`unmarked` the indices recorded by the last mark phase. -/
structure GC where
  objects : List GcObject
  main_refs : List Nat
  t2_refs : List (Nat × Nat)
  unmarked : List Nat
deriving DecidableEq, Repr

def GC.new : GC := { objects := [], main_refs := [], t2_refs := [], unmarked := [] }

/-- `GC::pin_object`. -/
def GC.pin_object (gc : GC) (obj : GcObject) : GC := { gc with objects := gc.objects ++ [obj] }

/-- Successors of a pointer in the reference multimap (`t2_refs.get(&cur_ptr)`). -/
def gcSuccs (t2 : List (Nat × Nat)) (p : Nat) : List Nat :=
  (t2.filter (fun e => decide (e.1 = p))).map (·.2)

/-- The BFS of `GC::mark`: pop a pointer, skip it if already reached, otherwise
record it and enqueue its not-yet-reached successors.  The fuel argument only
bounds the number of loop iterations (the source loop always terminates because
the reached set grows); `GC.mark` passes a fuel that is ample for the queue and
edge list at hand. -/
def gcBfs (t2 : List (Nat × Nat)) : Nat → List Nat → List Nat → List Nat
  | 0, _, reach => reach
  | _ + 1, [], reach => reach
  | fuel + 1, p :: rest, reach =>
    if p ∈ reach then gcBfs t2 fuel rest reach
    else
      gcBfs t2 fuel (rest ++ (gcSuccs t2 p).filter (fun q => decide (q ∉ reach ++ [p])))
        (reach ++ [p])

/-- `GC::mark` (src/gc.rs): roots are `main_refs ∪ t1_refs`; BFS over `t2_refs`
computes the reachable set; every tracked object is marked iff its pointer was
reached, and the indices of unmarked objects are recorded in ascending order. -/
def GC.mark (gc : GC) (t1 : List Nat) (t2 : List (Nat × Nat)) : GC :=
  let refs := gc.main_refs ++ t1
  let reachable := gcBfs t2 ((refs.length + t2.length + 1) * (t2.length + 2)) refs []
  { gc with
      t2_refs := t2,
      objects := gc.objects.map (fun o => { o with marked := decide (o.heap_ptr ∈ reachable) }),
      unmarked :=
        ((gc.objects.enum.filter (fun io => decide (io.2.heap_ptr ∉ reachable))).map (·.1)) }

/-- The removal loop of `GC::sweep`: for each recorded index (in the order the
source iterates them), remove the object at that index from the *current* list
if the index is still in bounds, collecting its pointer. -/
def sweepGo : List Nat → List GcObject → List Nat → List GcObject × List Nat
  | [], objs, res => (objs, res)
  | idx :: rest, objs, res =>
    if h : idx < objs.length then
      sweepGo rest (objs.eraseIdx idx) (res ++ [(objs.get ⟨idx, h⟩).heap_ptr])
    else sweepGo rest objs res

/-- Descending insertion used to model `sort_unstable_by(|a, b| b.cmp(a))`. -/
def insertDesc (n : Nat) : List Nat → List Nat
  | [] => [n]
  | m :: rest => if m ≤ n then n :: m :: rest else m :: insertDesc n rest

def sortDesc : List Nat → List Nat
  | [] => []
  | n :: rest => insertDesc n (sortDesc rest)

/-- Rust `Vec::dedup`: drop elements equal to their predecessor. -/
def dedupAdjGo (prev : Nat) : List Nat → List Nat
  | [] => []
  | b :: rest => if b = prev then dedupAdjGo prev rest else b :: dedupAdjGo b rest

def dedupAdj : List Nat → List Nat
  | [] => []
  | a :: rest => a :: dedupAdjGo a rest

/-- `GC::sweep` (src/gc.rs): sort the unmarked indices descending, dedup, then
iterate them *in reverse* (i.e. ascending) removing each still-in-bounds index
from the object list and collecting the pointers.  Clears `unmarked`. -/
def GC.sweep (gc : GC) : GC × List Nat :=
  let sorted := dedupAdj (sortDesc gc.unmarked)
  let st := sweepGo sorted.reverse gc.objects []
  ({ gc with objects := st.1, unmarked := [] }, st.2)

/-- An operand-stack frame (src/stack.rs, `StackFrame`). -/
structure StackFrame where
  val : Nat
  ftype : RegTypes
deriving DecidableEq, Repr

/-- A call-stack frame (src/callstack.rs, `CSFrame`); the `locals` and `checked`
fields of the source are never read and are omitted. -/
structure CSFrame where
  retaddr : Nat
deriving DecidableEq, Repr

/-- VM state (src/vm.rs, `VM`).  `flags` is the four-byte array
`[of, zf, nf, cf]`.  Fields the verified claims never touch (`data_base`,
`data_size`, the native-call table, `running`, `float_epsilon`) are omitted. -/
structure VM where
  registers : List Reg
  reg_types : List RegTypes
  flags : List Nat
  ip : Nat
  memory : List Nat
  stack : List StackFrame
  heap : Heap
  gc : GC
  func_table : List Nat
  call_stack : List CSFrame
  rec_depth_max : Nat
  exceptions_active : List Exc
deriving DecidableEq, Repr

/-- Result of one instruction handler: `fatal` models a Rust panic (host-level
abort; whatever the handler had mutated is lost with the process). -/
inductive StepResult where
  | ok (vm : VM)
  | fatal
deriving DecidableEq, Repr

/-- One memory byte (`vm.memory[i]`; all verified executions stay in bounds). -/
def mem8 (vm : VM) (i : Nat) : Nat := vm.memory.getD i 0

/-- `args_to_u64` over `memory[i .. i + 8]` (big-endian). -/
def memU64 (vm : VM) (i : Nat) : Nat :=
  (List.range 8).foldl (fun acc k => acc * 256 + mem8 vm (i + k)) 0

def getReg (vm : VM) (i : Nat) : Reg := vm.registers.getD i (.uint 0)

def getType (vm : VM) (i : Nat) : RegTypes := vm.reg_types.getD i .uint64

/-- Write a register cell together with its type tag. -/
def setReg (vm : VM) (i : Nat) (r : Reg) (t : RegTypes) : VM :=
  { vm with registers := vm.registers.set i r, reg_types := vm.reg_types.set i t }

def setFlag (vm : VM) (i v : Nat) : VM := { vm with flags := vm.flags.set i v }

def pushExc (vm : VM) (e : Exc) : VM :=
  { vm with exceptions_active := vm.exceptions_active ++ [e] }

/-- `VM::op_uload` (0x10, size 10): load an immediate as `uint`. -/
def VM.op_uload (vm : VM) : StepResult :=
  let rd := mem8 vm (vm.ip + 1)
  let v := memU64 vm (vm.ip + 2)
  .ok { setReg vm rd (.uint v) .uint64 with ip := vm.ip + 10 }

/-- `VM::op_udiv` (0x14, size 4).  When the divisor register equals
`Register::uint(0)` the source pushes `ZeroDivision` — and then still evaluates
the register division, whose uint arm divides by zero and panics, aborting the
host process (so the enqueued exception is never observable).  The panic is
modelled by `fatal`. -/
def VM.op_udiv (fdiv : Nat → Nat → Nat) (vm : VM) : StepResult :=
  let reg_out := mem8 vm (vm.ip + 1)
  let reg_1 := mem8 vm (vm.ip + 2)
  let reg_2 := mem8 vm (vm.ip + 3)
  let vm1 := if (getReg vm reg_2).eqv (.uint 0) then pushExc vm .ZeroDivision else vm
  match (getReg vm1 reg_1).div fdiv (getReg vm1 reg_2) with
  | none => .fatal
  | some r => .ok { setReg vm1 reg_out r .uint64 with ip := vm.ip + 4 }

/-- `VM::op_idiv` (0x24, size 4): when the divisor register equals
`Register::int(0)` the source panics outright (no exception is enqueued). -/
def VM.op_idiv (fdiv : Nat → Nat → Nat) (vm : VM) : StepResult :=
  let dest := mem8 vm (vm.ip + 1)
  let reg_1 := mem8 vm (vm.ip + 2)
  let reg_2 := mem8 vm (vm.ip + 3)
  if (getReg vm reg_2).eqv (.int 0) then .fatal
  else
    match (getReg vm reg_1).div fdiv (getReg vm reg_2) with
    | none => .fatal
    | some r => .ok { setReg vm dest r .int64 with ip := vm.ip + 4 }

/-- `VM::op_fdiv` (0x34, size 4): a divisor equal to `0f64` (either zero bit
pattern) enqueues `ZeroDivision` and advances; otherwise the IEEE division
(parameter `fdiv`) is performed. -/
def VM.op_fdiv (fdiv : Nat → Nat → Nat) (vm : VM) : StepResult :=
  let dest := mem8 vm (vm.ip + 1)
  let reg_1 := mem8 vm (vm.ip + 2)
  let reg_2 := mem8 vm (vm.ip + 3)
  if (getReg vm reg_2).eqv (.float 0) then .ok { pushExc vm .ZeroDivision with ip := vm.ip + 4 }
  else
    match (getReg vm reg_1).div fdiv (getReg vm reg_2) with
    | none => .fatal
    | some r => .ok { setReg vm dest r .float64 with ip := vm.ip + 4 }

/-- Exception codes recognized by `jexc` (src/vm.rs `op_jexc`); any other code
panics. -/
def decodeExcCode : Nat → Option Exc
  | 1 => some .ZeroDivision
  | 2 => some .HeapAllocationFault
  | 3 => some .HeapFreeFault
  | 4 => some .HeapWriteFault
  | 5 => some .HeapReadFault
  | 6 => some .NegativeSqrt
  | _ => none

/-- The scan loop of `op_jexc`: remove the first occurrence of `e`, or `none`
when it is absent. -/
def scanExc (e : Exc) : List Exc → Option (List Exc)
  | [] => none
  | x :: rest =>
    if x = e then some rest
    else
      match scanExc e rest with
      | none => none
      | some l => some (x :: l)

/-- `VM::op_jexc` (0x46, size 17): decode the exception code (unknown codes
panic), scan the queue for it; on a hit consume that occurrence and jump,
otherwise fall through. -/
def VM.op_jexc (vm : VM) : StepResult :=
  let exc_n := memU64 vm (vm.ip + 1)
  let tojump := memU64 vm (vm.ip + 9)
  match decodeExcCode exc_n with
  | none => .fatal
  | some e =>
    match scanExc e vm.exceptions_active with
    | some q => .ok { vm with ip := tojump, exceptions_active := q }
    | none => .ok { vm with ip := vm.ip + 17 }

/-- `VM::op_or` (0x61, size 3).  Flags: a zero result sets ZF; a non-zero result
clears OF (`flags[0]`) and leaves ZF untouched — exactly the source's
`if res == 0 { flags[1] = 1 } else { flags[0] = 0 }`. -/
def VM.op_or (vm : VM) : StepResult :=
  let rd := mem8 vm (vm.ip + 1)
  let rs := mem8 vm (vm.ip + 2)
  match (getReg vm rd).bitor (getReg vm rs) with
  | none => .fatal
  | some res =>
    let vm1 := setReg vm rd res (getType vm rs)
    let vm2 := if res.as_u64 = 0 then setFlag vm1 1 1 else setFlag vm1 0 0
    .ok { vm2 with ip := vm.ip + 3 }

/-- `VM::op_and` (0x62, size 3); same flag pattern as `op_or`. -/
def VM.op_and (vm : VM) : StepResult :=
  let rd := mem8 vm (vm.ip + 1)
  let rs := mem8 vm (vm.ip + 2)
  match (getReg vm rd).bitand (getReg vm rs) with
  | none => .fatal
  | some res =>
    let vm1 := setReg vm rd res (getType vm rs)
    let vm2 := if res.as_u64 = 0 then setFlag vm1 1 1 else setFlag vm1 0 0
    .ok { vm2 with ip := vm.ip + 3 }

/-- `VM::op_not` (0x63, size 3): `Rd = !Rs`; same flag pattern as `op_or`. -/
def VM.op_not (vm : VM) : StepResult :=
  let rd := mem8 vm (vm.ip + 1)
  let rs := mem8 vm (vm.ip + 2)
  match (getReg vm rs).bitnot with
  | none => .fatal
  | some res =>
    let vm1 := setReg vm rd res (getType vm rs)
    let vm2 := if res.as_u64 = 0 then setFlag vm1 1 1 else setFlag vm1 0 0
    .ok { vm2 with ip := vm.ip + 3 }

/-- `VM::op_xor` (0x64, size 3); same flag pattern as `op_or`. -/
def VM.op_xor (vm : VM) : StepResult :=
  let rd := mem8 vm (vm.ip + 1)
  let rs := mem8 vm (vm.ip + 2)
  match (getReg vm rd).bitxor (getReg vm rs) with
  | none => .fatal
  | some res =>
    let vm1 := setReg vm rd res (getType vm rs)
    let vm2 := if res.as_u64 = 0 then setFlag vm1 1 1 else setFlag vm1 0 0
    .ok { vm2 with ip := vm.ip + 3 }

/-- `VM::op_test` (0x65, size 3): `Rd & Rs` without writing registers; same
flag pattern as `op_or`. -/
def VM.op_test (vm : VM) : StepResult :=
  let rd := mem8 vm (vm.ip + 1)
  let rs := mem8 vm (vm.ip + 2)
  match (getReg vm rd).bitand (getReg vm rs) with
  | none => .fatal
  | some res =>
    let vm1 := if res.as_u64 = 0 then setFlag vm 1 1 else setFlag vm 0 0
    .ok { vm1 with ip := vm.ip + 3 }

/-- `VM::op_lnot` (0x66, size 3): logical negation of `Rs` into `Rd`; same flag
pattern as `op_or`. -/
def VM.op_lnot (vm : VM) : StepResult :=
  let rd := mem8 vm (vm.ip + 1)
  let rs := mem8 vm (vm.ip + 2)
  let res := (getReg vm rs).logical_not
  let vm1 := setReg vm rd res (getType vm rs)
  let vm2 := if res.as_u64 = 0 then setFlag vm1 1 1 else setFlag vm1 0 0
  .ok { vm2 with ip := vm.ip + 3 }

/-- `op_pushall` (src/stack.rs, 0x82, size 1): the loop runs over
`0 .. registers.len().saturating_sub(1)`, i.e. registers 0 through 30 — the
last register is never pushed. -/
def VM.op_pushall (vm : VM) : StepResult :=
  let frames := (List.range (vm.registers.length - 1)).map
    (fun i => StackFrame.mk (getReg vm i).as_u64_bitwise (getType vm i))
  .ok { vm with stack := vm.stack ++ frames, ip := vm.ip + 1 }

/-- `op_popall` (src/stack.rs, 0x83, size 1): the source loop
`for i in registers.len().saturating_sub(1)..0` is an empty Rust range, so the
body never runs; only the instruction pointer advances. -/
def VM.op_popall (vm : VM) : StepResult := .ok { vm with ip := vm.ip + 1 }

/-- `op_call` (src/func_ops.rs, 0x90, size 9): panics when
`call_stack.len() + 1 > rec_depth_max` (before pushing), panics on a bad
function index, otherwise pushes the return address `ip + 9` and jumps. -/
def VM.op_call (vm : VM) : StepResult :=
  if vm.call_stack.length + 1 > vm.rec_depth_max then .fatal
  else
    let ind := memU64 vm (vm.ip + 1)
    match vm.func_table.get? ind with
    | none => .fatal
    | some tojmp =>
        .ok { vm with call_stack := vm.call_stack ++ [⟨vm.ip + 9⟩], ip := tojmp }

/-- `op_callr` (src/func_ops.rs, 0x93, size 2): indirect call through a
register-held index.  Unlike `op_call`, the source performs *no* recursion-depth
check; it pushes the return address `ip + 2` unconditionally once the function
index resolves. -/
def VM.op_callr (vm : VM) : StepResult :=
  let rs := mem8 vm (vm.ip + 1)
  let ind := (getReg vm rs).as_u64
  match vm.func_table.get? ind with
  | none => .fatal
  | some addr =>
      .ok { vm with call_stack := vm.call_stack ++ [⟨vm.ip + 2⟩], ip := addr }

/-- `op_alloc` (src/heap.rs, 0xA0, size 10): on success the pointer, on failure
`HeapAllocationFault` is enqueued and the pointer is 0; in *both* cases a fresh
`GcObject` with that pointer is pinned and the destination register is set to
the pointer with tag `address`. -/
def VM.op_alloc (vm : VM) : StepResult :=
  let rd := mem8 vm (vm.ip + 1)
  let size := memU64 vm (vm.ip + 2)
  let st := match vm.heap.alloc size with
    | some pa => ({ vm with heap := pa.2 }, pa.1)
    | none => (pushExc vm .HeapAllocationFault, 0)
  let vm2 := { st.1 with gc := st.1.gc.pin_object ⟨st.2, false⟩ }
  .ok { setReg vm2 rd (.address st.2) .address with ip := vm.ip + 10 }

/-- `op_allocr` (src/heap.rs, 0xA3, size 3): like `op_alloc` with the size taken
from a register. -/
def VM.op_allocr (vm : VM) : StepResult :=
  let rd := mem8 vm (vm.ip + 1)
  let size := (getReg vm (mem8 vm (vm.ip + 2))).as_u64
  let st := match vm.heap.alloc size with
    | some pa => ({ vm with heap := pa.2 }, pa.1)
    | none => (pushExc vm .HeapAllocationFault, 0)
  let vm2 := { st.1 with gc := st.1.gc.pin_object ⟨st.2, false⟩ }
  .ok { setReg vm2 rd (.address st.2) .address with ip := vm.ip + 3 }

/-- `op_allocr_nogc` (src/heap.rs, 0xA5, size 3): like `op_allocr` but no
`GcObject` is pinned — the block's lifetime is manual. -/
def VM.op_allocr_nogc (vm : VM) : StepResult :=
  let rd := mem8 vm (vm.ip + 1)
  let size := (getReg vm (mem8 vm (vm.ip + 2))).as_u64
  let st := match vm.heap.alloc size with
    | some pa => ({ vm with heap := pa.2 }, pa.1)
    | none => (pushExc vm .HeapAllocationFault, 0)
  .ok { setReg st.1 rd (.address st.2) .address with ip := vm.ip + 3 }

/-- `op_free` (src/heap.rs, 0xA1, size 2): free the block whose start equals the
register value; a miss enqueues `HeapFreeFault`. -/
def VM.op_free (vm : VM) : StepResult :=
  let rs := mem8 vm (vm.ip + 1)
  match vm.heap.free (getReg vm rs).as_u64 with
  | some h => .ok { vm with heap := h, ip := vm.ip + 2 }
  | none => .ok { pushExc vm .HeapFreeFault with ip := vm.ip + 2 }

/-- `VM::gc_gen_reg_set`: the values of all registers whose *type slot* is
`address`. -/
def VM.gc_gen_reg_set (vm : VM) : List Nat :=
  ((vm.registers.zip vm.reg_types).filter (fun rt => decide (rt.2 = RegTypes.address))).map
    (fun rt => rt.1.as_u64)

/-- `VM::fetch_dstack_refs` (src/vm.rs): the source loops over
`0 .. len.saturating_sub(1)`, i.e. it never inspects the *last* (topmost)
stack frame. -/
def VM.fetch_dstack_refs (vm : VM) : List Nat :=
  if vm.stack.length = 0 then []
  else
    ((vm.stack.take (vm.stack.length - 1)).filter
      (fun f => decide (f.ftype = RegTypes.address))).map (·.val)

/-- `VM::gc_finish_cleanup`: hand every swept pointer to `heap.free`; on a miss
the pointer is removed from the collector's pinned root set instead. -/
def VM.gc_finish_cleanup (vm : VM) (ptrs : List Nat) : VM :=
  ptrs.foldl
    (fun v p =>
      match v.heap.free p with
      | some h => { v with heap := h }
      | none => { v with gc := { v.gc with main_refs := v.gc.main_refs.erase p } })
    vm

/-- One collection cycle as performed by `VM::run` every 250 instructions:
gather register and data-stack roots, mark over `saved_refs`, sweep, and free
the swept pointers. -/
def VM.gcCycle (vm : VM) : VM :=
  let final := vm.gc_gen_reg_set ++ vm.fetch_dstack_refs
  let gc1 := vm.gc.mark final vm.heap.saved_refs
  let st := gc1.sweep
  VM.gc_finish_cleanup { vm with gc := st.1 } st.2

/-! ### Concrete states used to settle the claims -/

def regs0 : List Reg := List.replicate 32 (Reg.uint 0)

def types0 : List RegTypes := List.replicate 32 RegTypes.uint64

/-- A baseline VM state: 32 zeroed `uint` registers, clear flags, empty stacks
and queues, a 64-byte heap. -/
def baseVM : VM :=
  { registers := regs0, reg_types := types0, flags := [0, 0, 0, 0], ip := 0,
    memory := [], stack := [], heap := Heap.new 64, gc := GC.new,
    func_table := [], call_stack := [], rec_depth_max := 1000,
    exceptions_active := [] }

/-- Projection of a step result, falling back to a default on `fatal`. -/
def okOr (r : StepResult) (d : VM) : VM :=
  match r with
  | .ok v => v
  | .fatal => d

/-- State for C1/udiv: `udiv r0, r1, r2` with `r1 = uint 10`, `r2 = uint 0`. -/
def vmC1u : VM :=
  { baseVM with
    memory := [0x14, 0, 1, 2], registers := regs0.set 1 (.uint 10) }

/-- State for C1/idiv: `idiv r0, r1, r2` with `r1 = int 10`, `r2 = int 0`. -/
def vmC1i : VM :=
  { baseVM with
    memory := [0x24, 0, 1, 2],
    registers := (regs0.set 1 (.int 10)).set 2 (.int 0),
    reg_types := (types0.set 1 .int64).set 2 .int64 }

/-- C1 — the claim that all three division instructions enqueue `ZeroDivision`
and advance past the instruction on a zero divisor is violated by the code:
`udiv` enqueues the exception but then still performs the host division, which
panics, and `idiv` panics outright; both abort instead of advancing (only
`fdiv` complies).  Each evaluation holds for every IEEE-division parameter. -/
theorem udiv_idiv_zero_divisor_aborts :
    (∀ f : Nat → Nat → Nat, VM.op_udiv f vmC1u = .fatal) ∧
    (∀ f : Nat → Nat → Nat, VM.op_idiv f vmC1i = .fatal) := by
  constructor
  · intro f
    rfl
  · intro f
    rfl

/-- State for C2: a single operand-stack frame holds pointer 0 with tag
`address`; block `[0,7]` is allocated and tracked by a GC object; no register
roots; no heap-internal edges. -/
def vmC2 : VM :=
  { baseVM with
    stack := [⟨0, .address⟩],
    heap := { heap := [], free_list := [⟨8, 15⟩], allocated := [⟨0, 7⟩], saved_refs := [] },
    gc := { objects := [⟨0, false⟩], main_refs := [], t2_refs := [], unmarked := [] } }

/-- C2 — a block whose only root is the value of the topmost operand-stack
frame (tag `address`) is freed by one collection cycle: `fetch_dstack_refs`
iterates `0 .. len - 1` and skips the last frame, so the root set is empty and
the reachable block `[0,7]` is swept and handed to `heap.free`. -/
theorem gc_cycle_frees_stack_rooted_block :
    vmC2.stack = [⟨0, RegTypes.address⟩] ∧
    (⟨0, 7⟩ : HeapBlock) ∈ vmC2.heap.allocated ∧
    vmC2.gc.objects = [⟨0, false⟩] ∧
    (vmC2.gcCycle).heap.allocated = [] := by
  refine ⟨rfl, ?_, rfl, ?_⟩
  · decide
  · rfl

/-- State for C3: all registers `uint 0` except register 31 = `uint 7`; empty
operand stack. -/
def vmC3 : VM :=
  { baseVM with
    memory := [0x82], registers := regs0.set 31 (.uint 7) }

/-- C3 — `pushall`/`popall` do not save and restore the register file:
`popall` is a no-op apart from advancing IP (its loop range `31..0` is empty),
and `pushall` pushes only registers 0–30, so register 31 (here `uint 7`) never
reaches the stack — after `pushall` the stack holds 31 zero frames, not 32. -/
theorem pushall_popall_do_not_roundtrip :
    (∀ vm : VM, VM.op_popall vm = .ok { vm with ip := vm.ip + 1 }) ∧
    getReg vmC3 31 = .uint 7 ∧
    VM.op_pushall vmC3 =
      .ok { vmC3 with stack := List.replicate 31 ⟨0, .uint64⟩, ip := 1 } := by
  refine ⟨fun vm => rfl, rfl, ?_⟩
  rfl

/-- State for C7: the call stack already holds `rec_depth_max = 1` frames;
`callr r1` with `r1 = uint 0` and a one-entry function table. -/
def vmC7 : VM :=
  { baseVM with
    memory := [0x93, 1], func_table := [100],
    call_stack := [⟨0⟩], rec_depth_max := 1 }

def vmC7res : VM := okOr (VM.op_callr vmC7) vmC7

/-- C7 — the claim that *every* call instruction aborts rather than push past
the recursion limit fails for `callr`: with the call stack already at the
configured maximum (1), `callr` performs no depth check, pushes a return
address and jumps, leaving the stack at depth 2. -/
theorem callr_ignores_recursion_limit :
    vmC7.call_stack.length = vmC7.rec_depth_max ∧
    VM.op_callr vmC7 = .ok vmC7res ∧
    vmC7res.call_stack.length = 2 ∧
    vmC7res.ip = 100 := by
  exact ⟨rfl, rfl, rfl, rfl⟩

/-- State for C9: all four flags set to 1; `or r1, r2` with `r1 = uint 3`,
`r2 = uint 5` (non-zero result 7). -/
def vmC9 : VM :=
  { baseVM with
    memory := [0x61, 1, 2], flags := [1, 1, 1, 1],
    registers := (regs0.set 1 (.uint 3)).set 2 (.uint 5) }

def vmC9res : VM := okOr (VM.op_or vmC9) vmC9

/-- C9 — on a non-zero result the bitwise instructions do *not* clear ZF and do
*not* retain OF: starting from flags `[OF,ZF,NF,CF] = [1,1,1,1]`, `or`
producing 7 leaves ZF at 1 and clears OF to 0, the opposite of the claim. -/
theorem bitwise_or_clears_of_not_zf :
    VM.op_or vmC9 = .ok vmC9res ∧
    (getReg vmC9res 1).as_u64 ≠ 0 ∧
    vmC9.flags = [1, 1, 1, 1] ∧
    vmC9res.flags = [0, 1, 1, 1] := by
  refine ⟨rfl, ?_, rfl, rfl⟩
  decide

/-- Program for C5: `alloc r1, 8`; `free r1`; `allocr_nogc r2, r3` (r3 holds 8);
`uload r1, 0`; `uload r2, 0`.  The tracked block at pointer 0 is explicitly
freed, which does not unpin its `GcObject`; the nogc allocation then reuses
pointer 0. -/
def vmC5the : VM :=
  { baseVM with
    registers := regs0.set 3 (.uint 8),
    memory :=
      [0xA0, 1, 0, 0, 0, 0, 0, 0, 0, 8,
       0xA1, 1,
       0xA5, 2, 3,
       0x10, 1, 0, 0, 0, 0, 0, 0, 0, 0,
       0x10, 2, 0, 0, 0, 0, 0, 0, 0, 0] }

def vmC5a : VM := okOr (VM.op_alloc vmC5the) vmC5the

def vmC5b : VM := okOr (VM.op_free vmC5a) vmC5a

def vmC5c : VM := okOr (VM.op_allocr_nogc vmC5b) vmC5b

def vmC5d : VM := okOr (VM.op_uload vmC5c) vmC5c

def vmC5e : VM := okOr (VM.op_uload vmC5d) vmC5d

/-- C5 — counterexample to "a block allocated by `allocr_nogc` is never handed
to `heap.free` by the collector": after a tracked block at pointer 0 is
explicitly freed (its `GcObject` stays pinned) and `allocr_nogc` reuses
pointer 0, a collection cycle sweeps the stale object and `heap.free(0)`
releases the nogc block — no `free` instruction ran on it. -/
theorem gc_frees_aliased_nogc_block :
    getReg vmC5c 2 = .address 0 ∧
    vmC5c.gc = vmC5b.gc ∧
    (⟨0, 8⟩ : HeapBlock) ∈ vmC5e.heap.allocated ∧
    (vmC5e.gcCycle).heap.allocated = [] := by
  refine ⟨rfl, rfl, ?_, ?_⟩
  · decide
  · rfl

/-! ### C8: `jexc` semantics -/

theorem scanExc_of_mem {e : Exc} :
    ∀ {q : List Exc}, e ∈ q → scanExc e q = some (q.erase e) := by
  intro q hq
  induction q with
  | nil => cases hq
  | cons x rest ih =>
    by_cases hx : x = e
    · subst hx
      simp [scanExc, List.erase_cons]
    · have he : e ∈ rest := by
        rcases List.mem_cons.mp hq with h | h
        · exact absurd h.symm hx
        · exact h
      have hxe : (x == e) = false := by
        simp [hx]
      simp [scanExc, hx, ih he, List.erase_cons, hxe]

theorem scanExc_of_not_mem {e : Exc} :
    ∀ {q : List Exc}, e ∉ q → scanExc e q = none := by
  intro q hq
  induction q with
  | nil => rfl
  | cons x rest ih =>
    have hx : ¬ x = e := fun h => hq (h ▸ List.mem_cons_self x rest)
    have he : e ∉ rest := fun h => hq (List.mem_cons_of_mem x h)
    simp [scanExc, hx, ih he]

/-- C8 — `jexc CODE ADDR`: when `CODE` names a known exception kind `e`, the
handler consumes exactly the earliest enqueued occurrence of `e` (this is
`List.erase`) and jumps to `ADDR`; when `e` is absent the queue is unchanged
and IP advances by 17. -/
theorem jexc_consumes_earliest_matching (vm : VM) (e : Exc)
    (hdec : decodeExcCode (memU64 vm (vm.ip + 1)) = some e) :
    (e ∈ vm.exceptions_active →
      VM.op_jexc vm =
        .ok { vm with
              ip := memU64 vm (vm.ip + 9),
              exceptions_active := vm.exceptions_active.erase e }) ∧
    (e ∉ vm.exceptions_active →
      VM.op_jexc vm = .ok { vm with ip := vm.ip + 17 }) := by
  constructor
  · intro hmem
    simp only [VM.op_jexc, hdec, scanExc_of_mem hmem]
  · intro hmem
    simp only [VM.op_jexc, hdec, scanExc_of_not_mem hmem]

/-- State for the C8 witness: `jexc 1 42` with queue
`[HeapFreeFault, ZeroDivision, ZeroDivision]`. -/
def vmC8 : VM :=
  { baseVM with
    memory := [0x46, 0, 0, 0, 0, 0, 0, 0, 1, 0, 0, 0, 0, 0, 0, 0, 42],
    exceptions_active := [.HeapFreeFault, .ZeroDivision, .ZeroDivision] }

theorem jexc_consumes_earliest_matching_witness :
    decodeExcCode (memU64 vmC8 (vmC8.ip + 1)) = some .ZeroDivision ∧
    Exc.ZeroDivision ∈ vmC8.exceptions_active ∧
    VM.op_jexc vmC8 =
      .ok { vmC8 with
            ip := 42,
            exceptions_active := [.HeapFreeFault, .ZeroDivision] } := by
  refine ⟨rfl, by decide, ?_⟩
  exact (jexc_consumes_earliest_matching vmC8 .ZeroDivision rfl).1 (by decide)

/-! ### C10: allocation-failure side effects -/

/-- C10 — when the heap cannot satisfy the request, `op_alloc` and `op_allocr`
are not atomic: they enqueue `HeapAllocationFault`, still pin a fresh
`GcObject` whose pointer is 0, and overwrite the destination register with the
value 0 tagged `address`, then advance IP normally. -/
theorem alloc_failure_not_atomic :
    (∀ vm : VM, vm.heap.alloc (memU64 vm (vm.ip + 2)) = none →
      VM.op_alloc vm =
        .ok { setReg { pushExc vm .HeapAllocationFault with
                       gc := vm.gc.pin_object ⟨0, false⟩ }
                (mem8 vm (vm.ip + 1)) (.address 0) .address with ip := vm.ip + 10 }) ∧
    (∀ vm : VM, vm.heap.alloc ((getReg vm (mem8 vm (vm.ip + 2))).as_u64) = none →
      VM.op_allocr vm =
        .ok { setReg { pushExc vm .HeapAllocationFault with
                       gc := vm.gc.pin_object ⟨0, false⟩ }
                (mem8 vm (vm.ip + 1)) (.address 0) .address with ip := vm.ip + 3 }) := by
  constructor
  · intro vm h
    simp only [VM.op_alloc, h]
    rfl
  · intro vm h
    simp only [VM.op_allocr, h]
    rfl

/-- State for the C10 witness: an exhausted heap (empty free list) and
`alloc r1, 16`. -/
def vmC10 : VM :=
  { baseVM with
    heap := { heap := [], free_list := [], allocated := [], saved_refs := [] },
    memory := [0xA0, 1, 0, 0, 0, 0, 0, 0, 0, 16] }

/-- State for the C10 witness, register-sized variant: `allocr r1, r2` with
`r2 = uint 16`. -/
def vmC10r : VM :=
  { baseVM with
    heap := { heap := [], free_list := [], allocated := [], saved_refs := [] },
    memory := [0xA3, 1, 2],
    registers := regs0.set 2 (.uint 16) }

theorem alloc_failure_not_atomic_witness :
    (vmC10.heap.alloc (memU64 vmC10 (vmC10.ip + 2)) = none ∧
      VM.op_alloc vmC10 =
        .ok { setReg { pushExc vmC10 .HeapAllocationFault with
                       gc := vmC10.gc.pin_object ⟨0, false⟩ } 1 (.address 0) .address with
              ip := 10 }) ∧
    (vmC10r.heap.alloc ((getReg vmC10r (mem8 vmC10r (vmC10r.ip + 2))).as_u64) = none ∧
      VM.op_allocr vmC10r =
        .ok { setReg { pushExc vmC10r .HeapAllocationFault with
                       gc := vmC10r.gc.pin_object ⟨0, false⟩ } 1 (.address 0) .address with
              ip := 3 }) := by
  exact ⟨⟨rfl, alloc_failure_not_atomic.1 vmC10 rfl⟩,
         ⟨rfl, alloc_failure_not_atomic.2 vmC10r rfl⟩⟩

/-! ### C7 (amended): only `call` checks the recursion limit -/

/-- C7 — amended: `op_call` aborts fatally (without pushing) whenever one more
frame would exceed `rec_depth_max`; `op_callr` performs no depth check and
pushes the return address unconditionally once the register-held index
resolves in the function table. -/
theorem call_depth_check_only_direct :
    (∀ vm : VM, vm.call_stack.length + 1 > vm.rec_depth_max → VM.op_call vm = .fatal) ∧
    (∀ (vm : VM) (addr : Nat),
      vm.func_table.get? ((getReg vm (mem8 vm (vm.ip + 1))).as_u64) = some addr →
      VM.op_callr vm =
        .ok { vm with call_stack := vm.call_stack ++ [⟨vm.ip + 2⟩], ip := addr }) := by
  constructor
  · intro vm h
    simp only [VM.op_call, if_pos h]
  · intro vm addr h
    simp only [VM.op_callr, h]

/-- State for the C7 witness, fatal branch: depth limit 0, any `call`. -/
def vmC7call : VM :=
  { baseVM with memory := [0x90, 0, 0, 0, 0, 0, 0, 0, 0], rec_depth_max := 0 }

theorem call_depth_check_only_direct_witness :
    (vmC7call.call_stack.length + 1 > vmC7call.rec_depth_max ∧
      VM.op_call vmC7call = .fatal) ∧
    (vmC7.func_table.get? ((getReg vmC7 (mem8 vmC7 (vmC7.ip + 1))).as_u64) = some 100 ∧
      VM.op_callr vmC7 =
        .ok { vmC7 with call_stack := vmC7.call_stack ++ [⟨2⟩], ip := 100 }) := by
  exact ⟨⟨by decide, call_depth_check_only_direct.1 vmC7call (by decide)⟩,
         ⟨rfl, call_depth_check_only_direct.2 vmC7 100 rfl⟩⟩

/-! ### C9 (amended): bitwise flag conduct -/

/-- The flag outcome shared by all six bitwise handlers: zero result sets ZF
(`flags[1]`), non-zero result clears OF (`flags[0]`); nothing else changes. -/
def bitFlags (vm : VM) (res : Reg) : List Nat :=
  if res.as_u64 = 0 then vm.flags.set 1 1 else vm.flags.set 0 0

/-- C9 — amended: every bitwise instruction with compatible operands writes its
usual result and updates the flag array to `bitFlags`: ZF set on a zero result
(OF, NF, CF retained), OF cleared on a non-zero result (ZF, NF, CF retained). -/
theorem bitwise_flags_semantics :
    (∀ (vm : VM) (res : Reg),
      (getReg vm (mem8 vm (vm.ip + 1))).bitor (getReg vm (mem8 vm (vm.ip + 2))) = some res →
      VM.op_or vm =
        .ok { setReg vm (mem8 vm (vm.ip + 1)) res (getType vm (mem8 vm (vm.ip + 2))) with
              flags := bitFlags vm res, ip := vm.ip + 3 }) ∧
    (∀ (vm : VM) (res : Reg),
      (getReg vm (mem8 vm (vm.ip + 1))).bitand (getReg vm (mem8 vm (vm.ip + 2))) = some res →
      VM.op_and vm =
        .ok { setReg vm (mem8 vm (vm.ip + 1)) res (getType vm (mem8 vm (vm.ip + 2))) with
              flags := bitFlags vm res, ip := vm.ip + 3 }) ∧
    (∀ (vm : VM) (res : Reg),
      (getReg vm (mem8 vm (vm.ip + 2))).bitnot = some res →
      VM.op_not vm =
        .ok { setReg vm (mem8 vm (vm.ip + 1)) res (getType vm (mem8 vm (vm.ip + 2))) with
              flags := bitFlags vm res, ip := vm.ip + 3 }) ∧
    (∀ (vm : VM) (res : Reg),
      (getReg vm (mem8 vm (vm.ip + 1))).bitxor (getReg vm (mem8 vm (vm.ip + 2))) = some res →
      VM.op_xor vm =
        .ok { setReg vm (mem8 vm (vm.ip + 1)) res (getType vm (mem8 vm (vm.ip + 2))) with
              flags := bitFlags vm res, ip := vm.ip + 3 }) ∧
    (∀ (vm : VM) (res : Reg),
      (getReg vm (mem8 vm (vm.ip + 1))).bitand (getReg vm (mem8 vm (vm.ip + 2))) = some res →
      VM.op_test vm = .ok { vm with flags := bitFlags vm res, ip := vm.ip + 3 }) ∧
    (∀ vm : VM,
      VM.op_lnot vm =
        .ok { setReg vm (mem8 vm (vm.ip + 1)) (getReg vm (mem8 vm (vm.ip + 2))).logical_not
                (getType vm (mem8 vm (vm.ip + 2))) with
              flags := bitFlags vm ((getReg vm (mem8 vm (vm.ip + 2))).logical_not),
              ip := vm.ip + 3 }) := by
  refine ⟨?_, ?_, ?_, ?_, ?_, ?_⟩
  · intro vm res h
    simp only [VM.op_or, h, bitFlags]
    by_cases hz : res.as_u64 = 0 <;> simp [hz, setFlag, setReg]
  · intro vm res h
    simp only [VM.op_and, h, bitFlags]
    by_cases hz : res.as_u64 = 0 <;> simp [hz, setFlag, setReg]
  · intro vm res h
    simp only [VM.op_not, h, bitFlags]
    by_cases hz : res.as_u64 = 0 <;> simp [hz, setFlag, setReg]
  · intro vm res h
    simp only [VM.op_xor, h, bitFlags]
    by_cases hz : res.as_u64 = 0 <;> simp [hz, setFlag, setReg]
  · intro vm res h
    simp only [VM.op_test, h, bitFlags]
    by_cases hz : res.as_u64 = 0 <;> simp [hz, setFlag]
  · intro vm
    simp only [VM.op_lnot, bitFlags]
    by_cases hz : ((getReg vm (mem8 vm (vm.ip + 2))).logical_not).as_u64 = 0 <;>
      simp [hz, setFlag, setReg]

/-- State for the C9 witness: operand bytes name `r1`, `r2` with `r1 = uint 3`,
`r2 = uint 5` (the handlers never re-read the opcode byte). -/
def vmC9W : VM :=
  { baseVM with
    memory := [0, 1, 2],
    registers := (regs0.set 1 (.uint 3)).set 2 (.uint 5) }

theorem bitwise_flags_semantics_witness :
    (VM.op_or vmC9W = .ok { setReg vmC9W 1 (.uint 7) .uint64 with
        flags := bitFlags vmC9W (.uint 7), ip := 3 }) ∧
    (VM.op_and vmC9W = .ok { setReg vmC9W 1 (.uint 1) .uint64 with
        flags := bitFlags vmC9W (.uint 1), ip := 3 }) ∧
    (VM.op_not vmC9W = .ok { setReg vmC9W 1 (.uint 18446744073709551610) .uint64 with
        flags := bitFlags vmC9W (.uint 18446744073709551610), ip := 3 }) ∧
    (VM.op_xor vmC9W = .ok { setReg vmC9W 1 (.uint 6) .uint64 with
        flags := bitFlags vmC9W (.uint 6), ip := 3 }) ∧
    (VM.op_test vmC9W = .ok { vmC9W with flags := bitFlags vmC9W (.uint 1), ip := 3 }) ∧
    (VM.op_lnot vmC9W = .ok { setReg vmC9W 1 (.uint 0) .uint64 with
        flags := bitFlags vmC9W (.uint 0), ip := 3 }) := by
  obtain ⟨h1, h2, h3, h4, h5, h6⟩ := bitwise_flags_semantics
  exact ⟨h1 vmC9W (.uint 7) rfl, h2 vmC9W (.uint 1) rfl,
         h3 vmC9W (.uint 18446744073709551610) rfl, h4 vmC9W (.uint 6) rfl,
         h5 vmC9W (.uint 1) rfl, h6 vmC9W⟩

/-! ### C5 (amended): the collector only frees pointers of tracked objects -/

theorem sweepGo_ptrs :
    ∀ (idxs : List Nat) (objs : List GcObject) (res : List Nat),
      ∀ q ∈ (sweepGo idxs objs res).2, q ∈ res ∨ ∃ o ∈ objs, o.heap_ptr = q := by
  intro idxs
  induction idxs with
  | nil =>
    intro objs res q hq
    exact Or.inl hq
  | cons idx rest ih =>
    intro objs res q hq
    by_cases h : idx < objs.length
    · rw [sweepGo, dif_pos h] at hq
      rcases ih _ _ q hq with hr | ⟨o, ho, rfl⟩
      · rcases List.mem_append.mp hr with hr | hr
        · exact Or.inl hr
        · have : q = (objs.get ⟨idx, h⟩).heap_ptr := List.mem_singleton.mp hr
          exact Or.inr ⟨objs.get ⟨idx, h⟩, List.get_mem objs idx h, this.symm⟩
      · exact Or.inr ⟨o, (List.eraseIdx_sublist objs idx).subset ho, rfl⟩
    · rw [sweepGo, dif_neg h] at hq
      exact ih _ _ q hq

theorem sweep_ptrs (gc : GC) : ∀ q ∈ gc.sweep.2, ∃ o ∈ gc.objects, o.heap_ptr = q := by
  intro q hq
  rcases sweepGo_ptrs _ _ _ q hq with h | h
  · cases h
  · exact h

theorem mark_ptrs (gc : GC) (t1 : List Nat) (t2 : List (Nat × Nat)) :
    ∀ o ∈ (gc.mark t1 t2).objects, ∃ o2 ∈ gc.objects, o2.heap_ptr = o.heap_ptr := by
  intro o ho
  rcases List.mem_map.mp ho with ⟨o2, ho2, rfl⟩
  exact ⟨o2, ho2, rfl⟩

theorem removeAllocated_mem :
    ∀ (l : List HeapBlock) (q : Nat) (blk : HeapBlock) (rest : List HeapBlock),
      removeAllocated l q = some (blk, rest) →
      ∀ x ∈ l, x.start_byte ≠ q → x ∈ rest := by
  intro l
  induction l with
  | nil =>
    intro q blk rest h
    cases h
  | cons c tail ih =>
    intro q blk rest h x hx hxq
    by_cases hc : c.start_byte = q
    · rw [removeAllocated, if_pos hc] at h
      obtain ⟨rfl, rfl⟩ := Prod.mk.injEq .. ▸ Option.some.injEq .. ▸ h
      rcases List.mem_cons.mp hx with rfl | hx2
      · exact absurd hc hxq
      · exact hx2
    · rw [removeAllocated, if_neg hc] at h
      cases hrec : removeAllocated tail q with
      | none => rw [hrec] at h; cases h
      | some pr =>
        rw [hrec] at h
        obtain ⟨rfl, rfl⟩ := Prod.mk.injEq .. ▸ Option.some.injEq .. ▸ h
        rcases List.mem_cons.mp hx with rfl | hx2
        · exact List.mem_cons_self _ _
        · exact List.mem_cons_of_mem _ (ih q pr.1 pr.2 (by rw [hrec]) x hx2 hxq)

theorem free_keeps_other_blocks (h : Heap) (q : Nat) (h2 : Heap)
    (hf : h.free q = some h2) (b : HeapBlock) (hb : b ∈ h.allocated)
    (hne : b.start_byte ≠ q) : b ∈ h2.allocated := by
  unfold Heap.free at hf
  cases hr : removeAllocated h.allocated q with
  | none => rw [hr] at hf; cases hf
  | some pr =>
    rw [hr] at hf
    have h2eq : h2.allocated = pr.2 := by
      cases hf.symm
      rfl
    rw [h2eq]
    exact removeAllocated_mem _ _ _ _ (by rw [hr]) b hb hne

theorem cleanup_keeps_block :
    ∀ (ptrs : List Nat) (vm : VM) (b : HeapBlock),
      b ∈ vm.heap.allocated → (∀ q ∈ ptrs, q ≠ b.start_byte) →
      b ∈ (VM.gc_finish_cleanup vm ptrs).heap.allocated := by
  intro ptrs
  induction ptrs with
  | nil =>
    intro vm b hb _
    exact hb
  | cons p rest ih =>
    intro vm b hb hq
    have hstep :
        VM.gc_finish_cleanup vm (p :: rest) =
          VM.gc_finish_cleanup
            (match vm.heap.free p with
              | some h => { vm with heap := h }
              | none => { vm with gc := { vm.gc with main_refs := vm.gc.main_refs.erase p } })
            rest := rfl
    rw [hstep]
    cases hf : vm.heap.free p with
    | none =>
      exact ih _ b hb (fun q hq2 => hq q (List.mem_cons_of_mem _ hq2))
    | some h2 =>
      refine ih _ b ?_ (fun q hq2 => hq q (List.mem_cons_of_mem _ hq2))
      exact free_keeps_other_blocks vm.heap p h2 hf b hb
        (fun hbs => hq p (List.mem_cons_self _ _) hbs.symm)

/-- C5 — amended: the sweep hands `heap.free` only pointers recorded in tracked
`GcObject`s, and `allocr_nogc` never pins one; hence an allocated block whose
start address differs from every tracked object's pointer survives a whole
collection cycle, and only an explicit `free` can release it.  (The
counterexample shows the remaining case: a stale tracked object aliasing a
reused nogc pointer does let the collector free the block.) -/
theorem nogc_block_safe_without_alias (vm : VM) (b : HeapBlock)
    (hb : b ∈ vm.heap.allocated)
    (hnp : ∀ o ∈ vm.gc.objects, o.heap_ptr ≠ b.start_byte) :
    b ∈ (vm.gcCycle).heap.allocated ∧
    (∀ w : VM, ∃ w2, VM.op_allocr_nogc w = .ok w2 ∧ w2.gc = w.gc) := by
  constructor
  · unfold VM.gcCycle
    apply cleanup_keeps_block
    · exact hb
    · intro q hq hqb
      obtain ⟨o, ho, rfl⟩ := sweep_ptrs _ q hq
      obtain ⟨o2, ho2, hptr⟩ := mark_ptrs vm.gc _ _ o ho
      exact hnp o2 ho2 (hptr.trans hqb)
  · intro w
    cases hf : w.heap.alloc ((getReg w (mem8 w (w.ip + 2))).as_u64) with
    | none =>
      exact ⟨{ setReg (pushExc w .HeapAllocationFault) (mem8 w (w.ip + 1))
                 (.address 0) .address with ip := w.ip + 3 },
             by simp only [VM.op_allocr_nogc, hf], rfl⟩
    | some pa =>
      exact ⟨{ setReg { w with heap := pa.2 } (mem8 w (w.ip + 1))
                 (.address pa.1) .address with ip := w.ip + 3 },
             by simp only [VM.op_allocr_nogc, hf], rfl⟩

/-- State for the C5 witness: block `[0,3]` allocated, the only tracked GC
object records pointer 5 ≠ 0. -/
def vmC5W : VM :=
  { baseVM with
    heap := { heap := [], free_list := [⟨4, 9⟩], allocated := [⟨0, 3⟩], saved_refs := [] },
    gc := { objects := [⟨5, false⟩], main_refs := [], t2_refs := [], unmarked := [] } }

theorem nogc_block_safe_without_alias_witness :
    (⟨0, 3⟩ : HeapBlock) ∈ vmC5W.heap.allocated ∧
    (∀ o ∈ vmC5W.gc.objects, o.heap_ptr ≠ (0 : Nat)) ∧
    (⟨0, 3⟩ : HeapBlock) ∈ (vmC5W.gcCycle).heap.allocated := by
  refine ⟨by decide, by decide, ?_⟩
  exact (nogc_block_safe_without_alias vmC5W ⟨0, 3⟩ (by decide) (by decide)).1

/-! ### C4: the free-list invariant -/

/-- A block is well formed when its range is non-empty (`start ≤ last`); every
block the allocator builds satisfies this (the source panics otherwise). -/
def wfBlock (b : HeapBlock) : Prop := b.start_byte ≤ b.last_byte

/-- Strict gap between two blocks: at least one byte lies between them. -/
def gapRel (a b : HeapBlock) : Prop := a.last_byte + 1 < b.start_byte

/-- `a` lies strictly before `b`. -/
def ltRel (a b : HeapBlock) : Prop := a.last_byte < b.start_byte

/-- Non-overlapping byte ranges. -/
def blocksDisjoint (a b : HeapBlock) : Prop :=
  a.last_byte < b.start_byte ∨ b.last_byte < a.start_byte

instance : DecidablePred wfBlock := fun b => by unfold wfBlock; infer_instance

instance : DecidableRel gapRel := fun a b => by unfold gapRel; infer_instance

instance : DecidableRel ltRel := fun a b => by unfold ltRel; infer_instance

instance : DecidableRel blocksDisjoint := fun a b => by unfold blocksDisjoint; infer_instance

theorem blocksDisjoint_symm {a b : HeapBlock} (h : blocksDisjoint a b) : blocksDisjoint b a :=
  h.symm

/-- The allocator invariant: the free list is pairwise separated by at least
one byte, every block is well formed, allocated blocks are pairwise disjoint,
and free and allocated blocks never overlap. -/
def HeapWF (h : Heap) : Prop :=
  h.free_list.Pairwise gapRel ∧
  (∀ b ∈ h.free_list, wfBlock b) ∧
  (∀ b ∈ h.allocated, wfBlock b) ∧
  h.allocated.Pairwise blocksDisjoint ∧
  (∀ f ∈ h.free_list, ∀ a ∈ h.allocated, blocksDisjoint f a)

instance (h : Heap) : Decidable (HeapWF h) := by unfold HeapWF; infer_instance

theorem heapWF_new (H : Nat) : HeapWF (Heap.new H) := by
  refine ⟨List.pairwise_singleton .., ?_, ?_, List.Pairwise.nil, ?_⟩
  · intro b hb
    rcases List.mem_singleton.mp hb with rfl
    exact Nat.zero_le _
  · intro b hb
    cases hb
  · intro f _ a ha
    cases ha

/-- Shape of a successful first-fit scan: the free list splits as
`l₁ ++ f :: l₂` around the found block `f`, the returned pointer is `f.start`,
and the updated free list either drops `f` (fully consumed) or replaces it by
the shrunk remainder. -/
theorem allocGo_spec :
    ∀ (l : List HeapBlock) (n p : Nat) (fl : List HeapBlock),
      allocGo n l = some (p, fl) →
      ∃ l₁ f l₂, l = l₁ ++ f :: l₂ ∧ f.start_byte = p ∧ n ≤ f.size ∧
        ((f.last_byte - (p + n) = 0 ∧ fl = l₁ ++ l₂) ∨
         (f.last_byte - (p + n) ≠ 0 ∧ fl = l₁ ++ ⟨p + n + 1, f.last_byte⟩ :: l₂)) := by
  intro l
  induction l with
  | nil =>
    intro n p fl h
    cases h
  | cons b rest ih =>
    intro n p fl h
    by_cases hfit : n ≤ b.size
    · rw [allocGo, if_pos hfit] at h
      by_cases hfull : b.last_byte - (b.start_byte + n) = 0
      · rw [if_pos hfull] at h
        obtain ⟨rfl, rfl⟩ := Prod.mk.injEq .. ▸ Option.some.injEq .. ▸ h
        exact ⟨[], b, rest, rfl, rfl, hfit, Or.inl ⟨hfull, rfl⟩⟩
      · rw [if_neg hfull] at h
        obtain ⟨rfl, rfl⟩ := Prod.mk.injEq .. ▸ Option.some.injEq .. ▸ h
        exact ⟨[], b, rest, rfl, rfl, hfit, Or.inr ⟨hfull, rfl⟩⟩
    · rw [allocGo, if_neg hfit] at h
      cases hrec : allocGo n rest with
      | none => rw [hrec] at h; cases h
      | some pr =>
        rw [hrec] at h
        obtain ⟨rfl, rfl⟩ := Prod.mk.injEq .. ▸ Option.some.injEq .. ▸ h
        obtain ⟨l₁, f, l₂, hsplit, hstart, hn, hcase⟩ := ih n pr.1 pr.2 (by rw [hrec])
        refine ⟨b :: l₁, f, l₂, by rw [hsplit]; rfl, hstart, hn, ?_⟩
        rcases hcase with ⟨hz, hfl⟩ | ⟨hz, hfl⟩
        · exact Or.inl ⟨hz, by rw [hfl]; rfl⟩
        · exact Or.inr ⟨hz, by rw [hfl]; rfl⟩

theorem alloc_preserves (h : Heap) (n p : Nat) (h2 : Heap)
    (hwf : HeapWF h) (ha : h.alloc n = some (p, h2)) :
    HeapWF h2 ∧ h2.allocated = h.allocated ++ [⟨p, p + n⟩] ∧
      ∃ f ∈ h.free_list, f.start_byte = p ∧ p + n ≤ f.last_byte := by
  obtain ⟨hfreeP, hfreeW, hallocW, hallocP, hfa⟩ := hwf
  unfold Heap.alloc at ha
  cases hgo : allocGo n h.free_list with
  | none => rw [hgo] at ha; cases ha
  | some pr =>
    rw [hgo] at ha
    obtain ⟨q, fl⟩ := pr
    obtain ⟨rfl, rfl⟩ := Prod.mk.injEq .. ▸ Option.some.injEq .. ▸ ha
    obtain ⟨l₁, f, l₂, hsplit, hstart, hn, hcase⟩ := allocGo_spec _ n _ _ hgo
    have hfmem : f ∈ h.free_list := by
      rw [hsplit]
      exact List.mem_append_right _ (List.mem_cons_self _ _)
    have hfw : wfBlock f := hfreeW f hfmem
    have hlast : f.start_byte + n ≤ f.last_byte := by
      have := hn
      unfold HeapBlock.size at this
      unfold wfBlock at hfw
      omega
    have hnewWf : wfBlock (⟨q, q + n⟩ : HeapBlock) := Nat.le_add_right _ _
    have hnewSub : q = f.start_byte ∧ q + n ≤ f.last_byte := by
      constructor
      · exact hstart.symm
      · rw [← hstart]; exact hlast
    -- every old free block other than f keeps its relation to everything
    have hPsplit := hsplit ▸ hfreeP
    rw [List.pairwise_append] at hPsplit
    obtain ⟨hP1, hP2cons, hPcross⟩ := hPsplit
    rw [List.pairwise_cons] at hP2cons
    obtain ⟨hPf2, hP2⟩ := hP2cons
    -- the new allocated block is disjoint from every old allocated block
    have hnewOld : ∀ a ∈ h.allocated, blocksDisjoint a ⟨q, q + n⟩ := by
      intro a hamem
      rcases hfa f hfmem a hamem with hd | hd
      · exact Or.inr (by simpa using Nat.lt_of_le_of_lt hnewSub.2 hd)
      · exact Or.inl (by simp only []; omega)
    -- free blocks other than f are separated from the new allocated block
    have hl1new : ∀ fb ∈ l₁, blocksDisjoint fb ⟨q, q + n⟩ := by
      intro fb hfb
      have := hPcross fb hfb f (List.mem_cons_self _ _)
      unfold gapRel at this
      exact Or.inl (by simp only []; omega)
    have hl2new : ∀ fb ∈ l₂, blocksDisjoint fb ⟨q, q + n⟩ := by
      intro fb hfb
      have := hPf2 fb hfb
      unfold gapRel at this
      exact Or.inr (by simp only []; omega)
    have hallocW2 : ∀ b ∈ h.allocated ++ [(⟨q, q + n⟩ : HeapBlock)], wfBlock b := by
      intro b hb
      rcases List.mem_append.mp hb with hb | hb
      · exact hallocW b hb
      · rcases List.mem_singleton.mp hb with rfl
        exact hnewWf
    have hallocP2 : (h.allocated ++ [(⟨q, q + n⟩ : HeapBlock)]).Pairwise blocksDisjoint := by
      rw [List.pairwise_append]
      refine ⟨hallocP, List.pairwise_singleton .., ?_⟩
      intro a hamem b hb
      rcases List.mem_singleton.mp hb with rfl
      exact hnewOld a hamem
    refine ⟨⟨?_, ?_, hallocW2, hallocP2, ?_⟩, rfl, f, hfmem, hstart, hnewSub.2⟩
    · -- the updated free list keeps the gap invariant
      rcases hcase with ⟨_, hfl⟩ | ⟨hz, hfl⟩
      · rw [hfl]
        exact hfreeP.sublist (hsplit ▸ ((List.sublist_cons_self f l₂).append_left l₁))
      · rw [hfl, List.pairwise_append]
        refine ⟨hP1, ?_, ?_⟩
        · rw [List.pairwise_cons]
          refine ⟨?_, hP2⟩
          intro b hb
          have := hPf2 b hb
          unfold gapRel at this ⊢
          simp only [] at *
          omega
        · intro a hamem b hb
          rcases List.mem_cons.mp hb with rfl | hb
          · have := hPcross a hamem f (List.mem_cons_self _ _)
            unfold gapRel at this ⊢
            simp only [] at *
            omega
          · exact hPcross a hamem b (List.mem_cons_of_mem _ hb)
    · -- the surviving free blocks stay well formed
      rcases hcase with ⟨_, hfl⟩ | ⟨hz, hfl⟩
      · rw [hfl]
        intro b hb
        refine hfreeW b ?_
        rw [hsplit]
        rcases List.mem_append.mp hb with hb | hb
        · exact List.mem_append_left _ hb
        · exact List.mem_append_right _ (List.mem_cons_of_mem _ hb)
      · rw [hfl]
        intro b hb
        rcases List.mem_append.mp hb with hb | hb
        · exact hfreeW b (hsplit ▸ List.mem_append_left _ hb)
        · rcases List.mem_cons.mp hb with rfl | hb
          · unfold wfBlock
            simp only []
            omega
          · exact hfreeW b (hsplit ▸ List.mem_append_right _ (List.mem_cons_of_mem _ hb))
    · -- free blocks remain disjoint from every allocated block
      rcases hcase with ⟨_, hfl⟩ | ⟨hz, hfl⟩
      · rw [hfl]
        intro fb hfb a hamem
        rcases List.mem_append.mp hamem with ha2 | ha2
        · refine hfa fb ?_ a ha2
          rw [hsplit]
          rcases List.mem_append.mp hfb with hb | hb
          · exact List.mem_append_left _ hb
          · exact List.mem_append_right _ (List.mem_cons_of_mem _ hb)
        · rcases List.mem_singleton.mp ha2 with rfl
          rcases List.mem_append.mp hfb with hb | hb
          · exact hl1new fb hb
          · exact hl2new fb hb
      · rw [hfl]
        intro fb hfb a hamem
        rcases List.mem_append.mp hamem with ha2 | ha2
        · rcases List.mem_append.mp hfb with hb | hb
          · exact hfa fb (hsplit ▸ List.mem_append_left _ hb) a ha2
          · rcases List.mem_cons.mp hb with rfl | hb
            · -- the shrunk remainder sits inside the old f
              rcases hfa f hfmem a ha2 with hd | hd
              · exact Or.inl (by unfold blocksDisjoint at *; simp only [] at *; omega)
              · exact Or.inr (by unfold blocksDisjoint at *; simp only [] at *; omega)
            · exact hfa fb (hsplit ▸ List.mem_append_right _ (List.mem_cons_of_mem _ hb)) a ha2
        · rcases List.mem_singleton.mp ha2 with rfl
          rcases List.mem_append.mp hfb with hb | hb
          · exact hl1new fb hb
          · rcases List.mem_cons.mp hb with rfl | hb
            · exact Or.inr (Nat.lt_succ_self _)
            · exact hl2new fb hb

instance : IsTotal HeapBlock (fun a b => a.start_byte ≤ b.start_byte) :=
  ⟨fun a b => Nat.le_total _ _⟩

instance : IsTrans HeapBlock (fun a b => a.start_byte ≤ b.start_byte) :=
  ⟨fun _ _ _ => Nat.le_trans⟩

/-- Behaviour of the merge loop on a list of strictly ordered, well-formed
blocks, all satisfying a predicate `Q` closed under merging adjacent blocks:
the output is pairwise separated by a gap, stays well formed and in `Q`, and
every output block starts where some input block started. -/
theorem mergeGo_spec (Q : HeapBlock → Prop)
    (hQcl : ∀ a b : HeapBlock, Q a → Q b → wfBlock a → wfBlock b →
      a.last_byte + 1 = b.start_byte → Q ⟨a.start_byte, b.last_byte⟩) :
    ∀ (fuel : Nat) (l : List HeapBlock), l.length ≤ fuel →
      l.Pairwise ltRel → (∀ b ∈ l, wfBlock b) → (∀ b ∈ l, Q b) →
      (mergeGo fuel l).Pairwise gapRel ∧
      (∀ b ∈ mergeGo fuel l, wfBlock b) ∧
      (∀ b ∈ mergeGo fuel l, Q b) ∧
      (∀ c ∈ mergeGo fuel l, ∃ d ∈ l, d.start_byte = c.start_byte) := by
  intro fuel
  induction fuel with
  | zero =>
    intro l hlen _ _ _
    have : l = [] := List.length_eq_zero.mp (Nat.le_zero.mp hlen)
    subst this
    refine ⟨List.Pairwise.nil, ?_, ?_, ?_⟩
    · intro b hb
      cases hb
    · intro b hb
      cases hb
    · intro c hc
      cases hc
  | succ fuel ih =>
    intro l hlen hp hw hq
    cases l with
    | nil =>
      refine ⟨List.Pairwise.nil, ?_, ?_, ?_⟩
      · intro b hb
        cases hb
      · intro b hb
        cases hb
      · intro c hc
        cases hc
    | cons a tail =>
      cases tail with
      | nil =>
        refine ⟨List.pairwise_singleton .., ?_, ?_, ?_⟩
        · intro b hb
          rcases List.mem_singleton.mp hb with rfl
          exact hw _ (List.mem_cons_self _ _)
        · intro b hb
          rcases List.mem_singleton.mp hb with rfl
          exact hq _ (List.mem_cons_self _ _)
        · intro c hc
          rcases List.mem_singleton.mp hc with rfl
          exact ⟨_, List.mem_cons_self _ _, rfl⟩
      | cons b rest =>
        obtain ⟨ha_all, hp2⟩ := List.pairwise_cons.mp hp
        obtain ⟨hb_all, hprest⟩ := List.pairwise_cons.mp hp2
        have hab_lt : a.last_byte < b.start_byte := ha_all b (List.mem_cons_self _ _)
        have hwa : a.start_byte ≤ a.last_byte := hw a (List.mem_cons_self _ _)
        have hwb : b.start_byte ≤ b.last_byte :=
          hw b (List.mem_cons_of_mem _ (List.mem_cons_self _ _))
        by_cases hm : a.last_byte = b.start_byte - 1
        · -- adjacent: merge and continue at the same position
          have hab : a.last_byte + 1 = b.start_byte := by omega
          have hstep : mergeGo (fuel + 1) (a :: b :: rest) =
              mergeGo fuel (⟨a.start_byte, b.last_byte⟩ :: rest) := by
            rw [mergeGo, if_pos hm]
          have hlen2 : (⟨a.start_byte, b.last_byte⟩ :: rest : List HeapBlock).length ≤ fuel := by
            simp only [List.length_cons] at hlen ⊢
            omega
          have hp3 : (⟨a.start_byte, b.last_byte⟩ :: rest : List HeapBlock).Pairwise ltRel := by
            rw [List.pairwise_cons]
            exact ⟨fun x hx => hb_all x hx, hprest⟩
          have hw3 : ∀ x ∈ (⟨a.start_byte, b.last_byte⟩ :: rest : List HeapBlock), wfBlock x := by
            intro x hx
            rcases List.mem_cons.mp hx with rfl | hx
            · show a.start_byte ≤ b.last_byte
              omega
            · exact hw x (List.mem_cons_of_mem _ (List.mem_cons_of_mem _ hx))
          have hq3 : ∀ x ∈ (⟨a.start_byte, b.last_byte⟩ :: rest : List HeapBlock), Q x := by
            intro x hx
            rcases List.mem_cons.mp hx with rfl | hx
            · exact hQcl a b (hq a (List.mem_cons_self _ _))
                (hq b (List.mem_cons_of_mem _ (List.mem_cons_self _ _))) hwa hwb hab
            · exact hq x (List.mem_cons_of_mem _ (List.mem_cons_of_mem _ hx))
          obtain ⟨P1, P2, P3, P4⟩ := ih _ hlen2 hp3 hw3 hq3
          rw [hstep]
          refine ⟨P1, P2, P3, ?_⟩
          intro c hc
          obtain ⟨d, hd, hds⟩ := P4 c hc
          rcases List.mem_cons.mp hd with rfl | hd
          · exact ⟨a, List.mem_cons_self _ _, hds⟩
          · exact ⟨d, List.mem_cons_of_mem _ (List.mem_cons_of_mem _ hd), hds⟩
        · -- separated by at least one byte: keep the head and advance
          have hgapab : a.last_byte + 1 < b.start_byte := by omega
          have hstep : mergeGo (fuel + 1) (a :: b :: rest) =
              a :: mergeGo fuel (b :: rest) := by
            rw [mergeGo, if_neg hm]
          have hlen2 : (b :: rest).length ≤ fuel := by
            simp only [List.length_cons] at hlen ⊢
            omega
          have hw2 : ∀ x ∈ b :: rest, wfBlock x :=
            fun x hx => hw x (List.mem_cons_of_mem _ hx)
          have hq2 : ∀ x ∈ b :: rest, Q x :=
            fun x hx => hq x (List.mem_cons_of_mem _ hx)
          obtain ⟨P1, P2, P3, P4⟩ := ih _ hlen2 hp2 hw2 hq2
          rw [hstep]
          refine ⟨?_, ?_, ?_, ?_⟩
          · rw [List.pairwise_cons]
            refine ⟨?_, P1⟩
            intro c hc
            obtain ⟨d, hd, hds⟩ := P4 c hc
            show a.last_byte + 1 < c.start_byte
            rcases List.mem_cons.mp hd with rfl | hd
            · omega
            · have h1 : b.last_byte < d.start_byte := hb_all d hd
              omega
          · intro x hx
            rcases List.mem_cons.mp hx with rfl | hx
            · exact hwa
            · exact P2 x hx
          · intro x hx
            rcases List.mem_cons.mp hx with rfl | hx
            · exact hq _ (List.mem_cons_self _ _)
            · exact P3 x hx
          · intro c hc
            rcases List.mem_cons.mp hc with rfl | hc
            · exact ⟨_, List.mem_cons_self _ _, rfl⟩
            · obtain ⟨d, hd, hds⟩ := P4 c hc
              exact ⟨d, List.mem_cons_of_mem _ hd, hds⟩

/-- Decomposition of a successful `removeAllocated` search. -/
theorem removeAllocated_spec :
    ∀ (l : List HeapBlock) (ptr : Nat) (blk : HeapBlock) (rest : List HeapBlock),
      removeAllocated l ptr = some (blk, rest) →
      blk.start_byte = ptr ∧ ∃ l₁ l₂, l = l₁ ++ blk :: l₂ ∧ rest = l₁ ++ l₂ := by
  intro l
  induction l with
  | nil =>
    intro ptr blk rest h
    cases h
  | cons c tail ih =>
    intro ptr blk rest h
    by_cases hc : c.start_byte = ptr
    · rw [removeAllocated, if_pos hc] at h
      obtain ⟨rfl, rfl⟩ := Prod.mk.injEq .. ▸ Option.some.injEq .. ▸ h
      exact ⟨hc, [], tail, rfl, rfl⟩
    · rw [removeAllocated, if_neg hc] at h
      cases hrec : removeAllocated tail ptr with
      | none => rw [hrec] at h; cases h
      | some pr =>
        rw [hrec] at h
        obtain ⟨rfl, rfl⟩ := Prod.mk.injEq .. ▸ Option.some.injEq .. ▸ h
        obtain ⟨hs, l₁, l₂, hsplit, hrest⟩ := ih ptr pr.1 pr.2 (by rw [hrec])
        exact ⟨hs, c :: l₁, l₂, by rw [hsplit]; rfl, by rw [hrest]; rfl⟩

theorem free_preserves (h : Heap) (p : Nat) (h2 : Heap) (hwf : HeapWF h)
    (hf : h.free p = some h2) : HeapWF h2 := by
  obtain ⟨hfreeP, hfreeW, hallocW, hallocP, hfa⟩ := hwf
  unfold Heap.free at hf
  cases hr : removeAllocated h.allocated p with
  | none => rw [hr] at hf; cases hf
  | some pr =>
    rw [hr] at hf
    obtain ⟨blk, rest⟩ := pr
    have h2eq : h2 =
        { h with
          allocated := rest,
          free_list := mergeFreeBlocks (sortFree (h.free_list ++ [⟨p, blk.last_byte⟩])) } := by
      have hf2 : some
          ({ h with
             allocated := rest,
             free_list := mergeFreeBlocks (sortFree (h.free_list ++ [⟨p, blk.last_byte⟩])) } :
            Heap) = some h2 := hf
      exact (Option.some.inj hf2).symm
    subst h2eq
    obtain ⟨hstart, l₁, l₂, hsplit, hrest⟩ := removeAllocated_spec _ _ _ _ hr
    have hnb : (⟨p, blk.last_byte⟩ : HeapBlock) = blk := by
      cases blk
      cases hstart
      rfl
    rw [hnb]
    have hblkmem : blk ∈ h.allocated := by
      rw [hsplit]
      exact List.mem_append_right _ (List.mem_cons_self _ _)
    have hrestSub : ∀ x ∈ rest, x ∈ h.allocated := by
      intro x hx
      rw [hrest] at hx
      rw [hsplit]
      rcases List.mem_append.mp hx with hx | hx
      · exact List.mem_append_left _ hx
      · exact List.mem_append_right _ (List.mem_cons_of_mem _ hx)
    have hrestW : ∀ b ∈ rest, wfBlock b := fun b hb => hallocW b (hrestSub b hb)
    have hrestP : rest.Pairwise blocksDisjoint := by
      rw [hrest]
      refine hallocP.sublist ?_
      rw [hsplit]
      exact (List.sublist_cons_self blk l₂).append_left l₁
    have hblkRest : ∀ a ∈ rest, blocksDisjoint blk a := by
      have hps := hsplit ▸ hallocP
      rw [List.pairwise_append] at hps
      obtain ⟨_, hcons, hcross⟩ := hps
      obtain ⟨hblk2, _⟩ := List.pairwise_cons.mp hcons
      intro a ha
      rw [hrest] at ha
      rcases List.mem_append.mp ha with ha | ha
      · exact blocksDisjoint_symm (hcross a ha blk (List.mem_cons_self _ _))
      · exact hblk2 a ha
    -- facts about the list handed to the sort
    have hWin : ∀ b ∈ h.free_list ++ [blk], wfBlock b := by
      intro b hb
      rcases List.mem_append.mp hb with hb | hb
      · exact hfreeW b hb
      · have hb2 := List.mem_singleton.mp hb
        rw [hb2]
        exact hallocW blk hblkmem
    have hQin : ∀ b ∈ h.free_list ++ [blk], ∀ a ∈ rest, blocksDisjoint b a := by
      intro b hb
      rcases List.mem_append.mp hb with hb | hb
      · exact fun a ha => hfa b hb a (hrestSub a ha)
      · have hb2 := List.mem_singleton.mp hb
        rw [hb2]
        exact hblkRest
    have hDin : (h.free_list ++ [blk]).Pairwise blocksDisjoint := by
      rw [List.pairwise_append]
      refine ⟨hfreeP.imp (fun hg => Or.inl (by unfold gapRel at hg; omega)),
        List.pairwise_singleton .., ?_⟩
      intro a ha b hb
      have hb2 := List.mem_singleton.mp hb
      rw [hb2]
      exact hfa a ha blk hblkmem
    -- transfer them across the sort
    have hperm : List.Perm (sortFree (h.free_list ++ [blk])) (h.free_list ++ [blk]) :=
      List.perm_insertionSort _ _
    have hsorted : (sortFree (h.free_list ++ [blk])).Pairwise
        (fun a b => a.start_byte ≤ b.start_byte) := List.sorted_insertionSort _ _
    have hsortW : ∀ b ∈ sortFree (h.free_list ++ [blk]), wfBlock b :=
      fun b hb => hWin b (hperm.mem_iff.mp hb)
    have hsortQ : ∀ b ∈ sortFree (h.free_list ++ [blk]), ∀ a ∈ rest, blocksDisjoint b a :=
      fun b hb => hQin b (hperm.mem_iff.mp hb)
    have hsortD : (sortFree (h.free_list ++ [blk])).Pairwise blocksDisjoint :=
      (hperm.pairwise_iff (fun hx => blocksDisjoint_symm hx)).mpr hDin
    have hsortLt : (sortFree (h.free_list ++ [blk])).Pairwise ltRel := by
      refine (hsorted.and hsortD).imp_of_mem ?_
      intro a b ha hb hab
      obtain ⟨hle, hd⟩ := hab
      rcases hd with hd | hd
      · exact hd
      · have := hsortW b hb
        unfold wfBlock at this
        unfold ltRel
        omega
    -- run the merge pass
    obtain ⟨mP, mW, mQ, _⟩ :=
      mergeGo_spec (fun x => ∀ a ∈ rest, blocksDisjoint x a)
        (by
          intro a b hqa hqb hwa2 hwb2 hadj x hx
          rcases hqb x hx with hd | hd
          · exact Or.inl hd
          · rcases hqa x hx with hd2 | hd2
            · have := hrestW x hx
              unfold wfBlock at this
              unfold blocksDisjoint
              omega
            · exact Or.inr hd2)
        (sortFree (h.free_list ++ [blk])).length _ le_rfl hsortLt hsortW hsortQ
    exact ⟨mP, mW, fun b hb => hallocW b (hrestSub b hb), hrestP,
      fun fb hfb a ha => mQ fb hfb a ha⟩

/-- An allocator call: the two public mutating entry points of `Heap`. -/
inductive HeapOp where
  | alloc (n : Nat)
  | free (p : Nat)
deriving DecidableEq, Repr

/-- Apply one call; a failed call (`None`/`Err`) leaves the heap unchanged,
as in the source. -/
def applyOp (h : Heap) : HeapOp → Heap
  | .alloc n =>
    match h.alloc n with
    | some pa => pa.2
    | none => h
  | .free p =>
    match h.free p with
    | some h2 => h2
    | none => h

theorem applyOp_preserves (h : Heap) (op : HeapOp) (hwf : HeapWF h) :
    HeapWF (applyOp h op) := by
  cases op with
  | alloc n =>
    cases ha : h.alloc n with
    | none => simpa [applyOp, ha] using hwf
    | some pa =>
      have := (alloc_preserves h n pa.1 pa.2 hwf (by rw [ha])).1
      simpa [applyOp, ha] using this
  | free p =>
    cases hf : h.free p with
    | none => simpa [applyOp, hf] using hwf
    | some h2 =>
      have := free_preserves h p h2 hwf hf
      simpa [applyOp, hf] using this

theorem foldl_applyOp_preserves :
    ∀ (ops : List HeapOp) (h : Heap), HeapWF h → HeapWF (ops.foldl applyOp h) := by
  intro ops
  induction ops with
  | nil =>
    intro h hw
    exact hw
  | cons op rest ih =>
    intro h hw
    exact ih _ (applyOp_preserves h op hw)

/-- C4 — after any sequence of `alloc`/`free` calls starting from a fresh heap,
the free list is sorted by start, its blocks are pairwise non-overlapping, and
no two consecutive blocks are adjacent (`free[i].last + 1 < free[i+1].start`). -/
theorem free_list_invariant_after_ops (H : Nat) (ops : List HeapOp) :
    ((ops.foldl applyOp (Heap.new H)).free_list.Pairwise
      (fun a b => a.start_byte < b.start_byte)) ∧
    ((ops.foldl applyOp (Heap.new H)).free_list.Pairwise blocksDisjoint) ∧
    ((ops.foldl applyOp (Heap.new H)).free_list.Chain'
      (fun a b => a.last_byte + 1 < b.start_byte)) := by
  obtain ⟨hP, hW, _, _, _⟩ := foldl_applyOp_preserves ops (Heap.new H) (heapWF_new H)
  refine ⟨?_, ?_, ?_⟩
  · refine hP.imp_of_mem ?_
    intro a b ha _ hg
    have := hW a ha
    unfold wfBlock at this
    unfold gapRel at hg
    omega
  · exact hP.imp (fun hg => Or.inl (by unfold gapRel at hg; omega))
  · exact hP.chain'

/-! ### C6: write bounds at a freshly allocated pointer -/

/-- C6 — for `p` returned by a successful `alloc N` on a well-formed heap,
writing exactly `N` bytes at `p` succeeds and writing `N + 1` bytes fails (the
`Err` that `op_store` raises as `HeapWriteFault`).  The carved block spans
`[p, p + N]` (one byte more than requested) while the bound check demands
`ptr + len ≤ last`, and the two off-by-ones cancel exactly. -/
theorem alloc_write_exact_bounds (h : Heap) (hwf : HeapWF h) (N p : Nat) (h2 : Heap)
    (hN : 0 < N) (ha : h.alloc N = some (p, h2)) :
    (∀ data : List Nat, data.length = N → (h2.write p data).isSome = true) ∧
    (∀ data : List Nat, data.length = N + 1 → h2.write p data = none) := by
  obtain ⟨_, hallocEq, f, hfmem, hfstart, hflast⟩ := alloc_preserves h N p h2 hwf ha
  constructor
  · intro data hlen
    unfold Heap.write
    rw [if_pos]
    · rfl
    · rw [List.any_eq_true]
      refine ⟨⟨p, p + N⟩, ?_, ?_⟩
      · rw [hallocEq]
        exact List.mem_append_right _ (List.mem_cons_self _ _)
      · unfold heapWriteCheck
        simp only [Bool.and_eq_true, decide_eq_true_eq]
        refine ⟨⟨Nat.le_refl _, Nat.le_add_right _ _⟩, ?_⟩
        rw [hlen]
  · intro data hlen
    unfold Heap.write
    rw [if_neg]
    intro hany
    rw [List.any_eq_true] at hany
    obtain ⟨b, hb, hchk⟩ := hany
    unfold heapWriteCheck at hchk
    simp only [Bool.and_eq_true, decide_eq_true_eq] at hchk
    obtain ⟨⟨hb1, hb2⟩, hb3⟩ := hchk
    rw [hlen] at hb3
    rw [hallocEq] at hb
    rcases List.mem_append.mp hb with hbOld | hbNew
    · have hfw := hwf.2.1 f hfmem
      unfold wfBlock at hfw
      rcases hwf.2.2.2.2 f hfmem b hbOld with hd | hd
      · omega
      · omega
    · have hbeq := List.mem_singleton.mp hbNew
      have hcontra : p + (N + 1) ≤ p + N := by
        rw [hbeq] at hb3
        exact hb3
      omega

/-- Heap state after the witness allocation `alloc 3` on `Heap.new 16`. -/
def heapC6out : Heap :=
  { heap := [], free_list := [⟨4, 15⟩], allocated := [⟨0, 3⟩], saved_refs := [] }

theorem alloc_write_exact_bounds_witness :
    HeapWF (Heap.new 16) ∧ 0 < 3 ∧ (Heap.new 16).alloc 3 = some (0, heapC6out) ∧
    (heapC6out.write 0 [1, 2, 3]).isSome = true ∧
    heapC6out.write 0 [1, 2, 3, 4] = none := by
  refine ⟨by decide, by decide, rfl, ?_, ?_⟩
  · exact (alloc_write_exact_bounds (Heap.new 16) (by decide) 3 0 heapC6out
      (by decide) rfl).1 [1, 2, 3] rfl
  · exact (alloc_write_exact_bounds (Heap.new 16) (by decide) 3 0 heapC6out
      (by decide) rfl).2 [1, 2, 3, 4] rfl

end VoxVM
